import Mathlib

/-!
Shallow embedding of the markdown reflow engine in `cmd/md-wrap/main.go`.

A Go string is modelled as a `List Char` (the sequence of runes obtained by
decoding the UTF-8 bytes).  Where the Go code works with byte counts
(`utf8.RuneLen`, byte slicing) we track byte lengths explicitly with
`runeLen`/`dropBytes`; where it works with rune counts (`len([]rune s)`) we
use `List.length`.  Output written with `fmt.Fprintln` is collected as a
`List (List Char)`, one entry per written line.
-/

namespace MdWrap

/-- Byte length of the UTF-8 encoding of a rune, as computed by Go's
`utf8.RuneLen` (Lean `Char` excludes surrogates, for which Go returns -1). -/
def runeLen (c : Char) : Nat :=
  if c.toNat < 0x80 then 1
  else if c.toNat < 0x800 then 2
  else if c.toNat < 0x10000 then 3
  else 4

/-- Go's `unicode.IsSpace`: the Unicode White_Space property
(U+0009..U+000D, U+0020, U+0085, U+00A0, U+1680, U+2000..U+200A,
U+2028, U+2029, U+202F, U+205F, U+3000). -/
def isSpace (c : Char) : Bool :=
  let n := c.toNat
  (9 ≤ n && n ≤ 13) || n == 32 || n == 133 || n == 160 || n == 5760 ||
  (8192 ≤ n && n ≤ 8202) || n == 8232 || n == 8233 || n == 8239 ||
  n == 8287 || n == 12288

/-- Go's `unicode.IsDigit` tests the Unicode category Nd; on the ASCII range
this is exactly the characters 0-9.  The development models documents over
the ASCII fragment of that predicate; exotic decimal digits are not
modelled. -/
def isDigit (c : Char) : Bool :=
  48 ≤ c.toNat && c.toNat ≤ 57

/-- `strings.TrimRightFunc s unicode.IsSpace`: remove trailing whitespace. -/
def trimRight (cs : List Char) : List Char :=
  (cs.reverse.dropWhile isSpace).reverse

/-- `strings.TrimSpace`: remove leading and trailing whitespace. -/
def trimSpace (cs : List Char) : List Char :=
  trimRight (cs.dropWhile isSpace)

/-- Drop `n` bytes from the front of a line (Go string slicing `s[n:]`).
In the source every slice offset falls on a rune boundary, so we drop whole
runes, decrementing the byte budget by each rune's encoded length. -/
def dropBytes : Nat → List Char → List Char
  | 0, cs => cs
  | _ + 1, [] => []
  | n + 1, c :: cs => dropBytes (n + 1 - runeLen c) cs

/-- Worker for `splitWords`: `acc` holds the runes of the current word in
reverse order. -/
def splitWordsGo : List Char → List Char → List (List Char)
  | [], acc => if acc.isEmpty then [] else [acc.reverse]
  | c :: cs, acc =>
    if isSpace c then
      if acc.isEmpty then splitWordsGo cs [] else acc.reverse :: splitWordsGo cs []
    else
      splitWordsGo cs (c :: acc)

/-- `bufio.ScanWords`: split a line into maximal runs of non-whitespace
runes, discarding the whitespace. -/
def splitWords (cs : List Char) : List (List Char) :=
  splitWordsGo cs []

/-- `countQuoteDepth` scan state: `bytes`, `consumedSpaceAfter`, `depth`,
`len` exactly as in the Go loop body. -/
def countQuoteDepthGo : List Char → Nat → Bool → Nat → Nat → Nat × Nat
  | [], _, _, depth, len => (depth, len)
  | r :: rest, bytes, consumedSpaceAfter, depth, len =>
    if isSpace r then
      let bytes := bytes + runeLen r
      if !consumedSpaceAfter then
        countQuoteDepthGo rest bytes true depth bytes
      else
        countQuoteDepthGo rest bytes true depth len
    else if r = '>' then
      let bytes := bytes + 1
      countQuoteDepthGo rest bytes false (depth + 1) bytes
    else
      (depth, len)

/-- `countQuoteDepth`: markdown quote depth of a line and the byte length of
the consumed quote prefix (including whitespace directly after the last
quote character). -/
def countQuoteDepth (line : List Char) : Nat × Nat :=
  countQuoteDepthGo line 0 true 0 0

inductive listType where
  | noList
  | numList
  | bulletList
deriving DecidableEq, Repr

/-- `listType.symbol`: the marker text re-emitted for each list kind. -/
def listType.symbol : listType → List Char
  | .numList => ['1', '.']
  | .bulletList => ['*']
  | .noList => []

/-- `listType.runes`: the rune width of the marker. -/
def listType.runes : listType → Nat
  | .numList => 2
  | .bulletList => 1
  | .noList => 0

structure listState where
  typ : listType
  indent : Nat
  indentBytes : Nat
deriving DecidableEq, Repr

/-- The Go zero value `listState{}`. -/
def listState.empty : listState := ⟨.noList, 0, 0⟩

/-- The two-rune lookahead after a digit in `countListIndent`: Go returns
early when `len(runes) <= i+2` (fewer than two runes follow, yielding
`false` here) and otherwise tests `runes[i+1] == '.' &&
unicode.IsSpace(runes[i+2])`; `rest` holds the runes after the digit. -/
def numMarkerAhead : List Char → Bool
  | c1 :: c2 :: _ => c1 = '.' && isSpace c2
  | _ => false

/-- Loop body of `countListIndent`; `l` is the partially built `listState`. -/
def countListIndentGo : List Char → listState → listState
  | [], l => l
  | r :: rest, l =>
    if isSpace r then
      countListIndentGo rest
        { l with
          indent := l.indent + 1
          indentBytes := l.indentBytes + runeLen r }
    else if isDigit r then
      if numMarkerAhead rest then { l with typ := .numList } else l
    else if r = '*' then
      { l with typ := .bulletList }
    else
      l

/-- `countListIndent`: classify a (quote-stripped) line's list marker and
leading indentation. -/
def countListIndent (line : List Char) : listState :=
  countListIndentGo line listState.empty

/-- `endsSentence`: does the word end a sentence? -/
def endsSentence (word : List Char) : Bool :=
  (['.'].isSuffixOf word ||
   ['.', '"'].isSuffixOf word ||
   ['.', '\''].isSuffixOf word) &&
  !(['e', '.', 'g', '.'].isSuffixOf word) &&
  !(['v', 's', '.'].isSuffixOf word) &&
  !(['i', '.', 'e', '.'].isSuffixOf word)

/-- The mutable fields of the Go `fmtState` (the output writer is threaded
separately as a list of written lines). -/
structure fmtState where
  charsPerLine : Nat
  newLine : List Char
  newLineRunes : Nat
  inCode : Bool
  list : listState
  appliedFirstList : Bool
  listPrefixFirst : List Char
  listPrefixRest : List Char
deriving DecidableEq, Repr

/-- `newFmtState`. -/
def initState (charsPerLine : Nat) : fmtState :=
  { charsPerLine := charsPerLine
    newLine := []
    newLineRunes := 0
    inCode := false
    list := listState.empty
    appliedFirstList := false
    listPrefixFirst := []
    listPrefixRest := [] }

/-- `fmtState.writeToLine`. -/
def writeToLine (f : fmtState) (s : List Char) : fmtState :=
  { f with newLine := f.newLine ++ s, newLineRunes := f.newLineRunes + s.length }

/-- `fmtState.flushLine`: write the pending line, trailing whitespace
trimmed, and reset the buffer. -/
def flushLine (f : fmtState) (out : List (List Char)) :
    fmtState × List (List Char) :=
  ({ f with newLine := [], newLineRunes := 0 }, out ++ [trimRight f.newLine])

/-- `fmtState.setListState`.  `strings.Repeat " " n` is `List.replicate n ' '`;
the marker symbols are ASCII so their byte and rune lengths agree. -/
def setListState (f : fmtState) (l : listState) : fmtState :=
  if l.typ ≠ listType.noList then
    { f with
      list := l
      appliedFirstList := false
      listPrefixFirst := List.replicate l.indent ' ' ++ l.typ.symbol ++ [' ']
      listPrefixRest := List.replicate (l.indent + l.typ.runes + 1) ' ' }
  else
    { f with list := l, listPrefixFirst := [], listPrefixRest := [] }

/-- Body of the inner word loop of `fmtState.process`.  `qp` is the local
`quotePrefix`; the second component of the state triple is the local
list-prefix variable, which the loop may overwrite with `listPrefixRest`
after the first line of a list item. -/
def processWord (qp : List Char) (st : fmtState × List Char × List (List Char))
    (word : List Char) : fmtState × List Char × List (List Char) :=
  let f := st.1
  let lp := st.2.1
  let out := st.2.2
  let fo :=
    if f.newLineRunes ≠ 0 ∧ f.newLineRunes + word.length > f.charsPerLine then
      flushLine f out
    else (f, out)
  let fl :=
    if fo.1.newLineRunes = 0 then
      let f1 := writeToLine (writeToLine fo.1 qp) lp
      if !f1.appliedFirstList then
        ({ f1 with appliedFirstList := true }, f1.listPrefixRest)
      else (f1, lp)
    else (fo.1, lp)
  let f2 := writeToLine fl.1 word
  if endsSentence word then
    let fo2 := flushLine f2 fo.2
    (fo2.1, fl.2, fo2.2)
  else
    (writeToLine f2 [' '], fl.2, fo.2)

/-- The inner `for sw.Scan()` loop over the words of one line. -/
def processWords (qp : List Char) (ws : List (List Char))
    (st : fmtState × List Char × List (List Char)) :
    fmtState × List Char × List (List Char) :=
  match ws with
  | [] => st
  | w :: ws => processWords qp ws (processWord qp st w)

/-- The triple-backtick fence marker. -/
def fenceMarker : List Char := ['`', '`', '`']

/-- One iteration of the outer `for s.Scan()` loop of `fmtState.process`. -/
def processLine (st : fmtState × List (List Char)) (line : List Char) :
    fmtState × List (List Char) :=
  let f := st.1
  let out := st.2
  let trimmedLine := trimSpace line
  if fenceMarker.isPrefixOf trimmedLine then
    -- Check if we're entering or exiting a code block.
    let fo :=
      if !f.inCode then
        let fo1 := if f.newLineRunes ≠ 0 then flushLine f out else (f, out)
        (setListState fo1.1 listState.empty, fo1.2)
      else (f, out)
    let f1 := { fo.1 with inCode := !fo.1.inCode }
    flushLine (writeToLine f1 trimmedLine) fo.2
  else if trimmedLine.isEmpty then
    let fo := if f.newLineRunes ≠ 0 then flushLine f out else (f, out)
    flushLine (setListState fo.1 listState.empty) fo.2
  else if f.inCode then
    -- Leave code lines alone.
    flushLine (writeToLine f line) out
  else
    let qd := countQuoteDepth line
    let qp := (List.replicate qd.1 ['>', ' ']).flatten
    let line1 := dropBytes qd.2 line
    let newList := countListIndent line1
    let fo :=
      if newList.typ ≠ listType.noList then
        let fo1 := if f.newLineRunes ≠ 0 then flushLine f out else (f, out)
        (setListState fo1.1 newList, fo1.2)
      else if f.list.typ ≠ listType.noList ∧
          newList.indent ≠ f.list.indent + f.list.typ.runes + 1 then
        let fo1 := if f.newLineRunes ≠ 0 then flushLine f out else (f, out)
        (setListState fo1.1 listState.empty, fo1.2)
      else (f, out)
    let lp :=
      if fo.1.list.typ ≠ listType.noList then
        if newList.typ ≠ listType.noList then fo.1.listPrefixFirst
        else fo.1.listPrefixRest
      else []
    let line2 := dropBytes (fo.1.list.indentBytes + fo.1.list.typ.symbol.length) line1
    let r := processWords qp (splitWords line2) (fo.1, lp, fo.2)
    (r.1, r.2.2)

/-- The outer loop of `fmtState.process` over all input lines. -/
def processLines (ls : List (List Char)) (st : fmtState × List (List Char)) :
    fmtState × List (List Char) :=
  match ls with
  | [] => st
  | l :: ls => processLines ls (processLine st l)

/-- `fmtState.process` run from a fresh state: consume every input line,
then flush any pending buffer.  Returns the written output lines. -/
def process (charsPerLine : Nat) (lines : List (List Char)) :
    List (List Char) :=
  let (f, out) := processLines lines (initState charsPerLine, [])
  if f.newLineRunes ≠ 0 then (flushLine f out).2 else out

/-!
A second run of the same engine with the I/O error plumbing made explicit,
for the error-handling claim.  The output stream is a `Writer` recording
every line handed to `fmt.Fprintln` together with the per-call failure
oracle's verdict; `fmt.Fprintln` returns its error and the engine discards
it.  The input stream is the list of lines the `bufio.Scanner` delivers
before `Scan` returns `false`, plus the value `s.Err()` would report
(`none` for EOF, `some e` after a read failure); the engine never calls
`s.Err()`.
-/

/-- The output stream: lines handed to `fmt.Fprintln`, and for each the
error it returned (`true` = the write failed). -/
structure Writer where
  attempted : List (List Char)
  results : List Bool
deriving DecidableEq, Repr

/-- One `fmt.Fprintln` call: the `fail` oracle decides whether this (the
`attempted.length`-th) write fails; the error is returned to the caller. -/
def writeFl (fail : Nat → Bool) (w : Writer) (s : List Char) : Writer × Bool :=
  let e := fail w.attempted.length
  (⟨w.attempted ++ [s], w.results ++ [e]⟩, e)

/-- `fmtState.flushLine` with explicit plumbing: the error returned by
`fmt.Fprintln` is discarded (the Go code ignores `Fprintln`'s results). -/
def flushLineFl (fail : Nat → Bool) (f : fmtState) (w : Writer) :
    fmtState × Writer :=
  let (w, _e) := writeFl fail w (trimRight f.newLine)
  ({ f with newLine := [], newLineRunes := 0 }, w)

/-- Word-loop body, with explicit write plumbing. -/
def processWordFl (fail : Nat → Bool) (qp : List Char)
    (st : fmtState × List Char × Writer) (word : List Char) :
    fmtState × List Char × Writer :=
  let f := st.1
  let lp := st.2.1
  let w := st.2.2
  let fo :=
    if f.newLineRunes ≠ 0 ∧ f.newLineRunes + word.length > f.charsPerLine then
      flushLineFl fail f w
    else (f, w)
  let fl :=
    if fo.1.newLineRunes = 0 then
      let f1 := writeToLine (writeToLine fo.1 qp) lp
      if !f1.appliedFirstList then
        ({ f1 with appliedFirstList := true }, f1.listPrefixRest)
      else (f1, lp)
    else (fo.1, lp)
  let f2 := writeToLine fl.1 word
  if endsSentence word then
    let fo2 := flushLineFl fail f2 fo.2
    (fo2.1, fl.2, fo2.2)
  else
    (writeToLine f2 [' '], fl.2, fo.2)

/-- Word loop, with explicit write plumbing. -/
def processWordsFl (fail : Nat → Bool) (qp : List Char) (ws : List (List Char))
    (st : fmtState × List Char × Writer) : fmtState × List Char × Writer :=
  match ws with
  | [] => st
  | wd :: ws => processWordsFl fail qp ws (processWordFl fail qp st wd)

/-- One outer-loop iteration, with explicit write plumbing. -/
def processLineFl (fail : Nat → Bool) (st : fmtState × Writer)
    (line : List Char) : fmtState × Writer :=
  let f := st.1
  let w := st.2
  let trimmedLine := trimSpace line
  if fenceMarker.isPrefixOf trimmedLine then
    let fo :=
      if !f.inCode then
        let fo1 := if f.newLineRunes ≠ 0 then flushLineFl fail f w else (f, w)
        (setListState fo1.1 listState.empty, fo1.2)
      else (f, w)
    let f1 := { fo.1 with inCode := !fo.1.inCode }
    flushLineFl fail (writeToLine f1 trimmedLine) fo.2
  else if trimmedLine.isEmpty then
    let fo := if f.newLineRunes ≠ 0 then flushLineFl fail f w else (f, w)
    flushLineFl fail (setListState fo.1 listState.empty) fo.2
  else if f.inCode then
    flushLineFl fail (writeToLine f line) w
  else
    let qd := countQuoteDepth line
    let qp := (List.replicate qd.1 ['>', ' ']).flatten
    let line1 := dropBytes qd.2 line
    let newList := countListIndent line1
    let fo :=
      if newList.typ ≠ listType.noList then
        let fo1 := if f.newLineRunes ≠ 0 then flushLineFl fail f w else (f, w)
        (setListState fo1.1 newList, fo1.2)
      else if f.list.typ ≠ listType.noList ∧
          newList.indent ≠ f.list.indent + f.list.typ.runes + 1 then
        let fo1 := if f.newLineRunes ≠ 0 then flushLineFl fail f w else (f, w)
        (setListState fo1.1 listState.empty, fo1.2)
      else (f, w)
    let lp :=
      if fo.1.list.typ ≠ listType.noList then
        if newList.typ ≠ listType.noList then fo.1.listPrefixFirst
        else fo.1.listPrefixRest
      else []
    let line2 := dropBytes (fo.1.list.indentBytes + fo.1.list.typ.symbol.length) line1
    let r := processWordsFl fail qp (splitWords line2) (fo.1, lp, fo.2)
    (r.1, r.2.2)

/-- Outer loop, with explicit write plumbing. -/
def processLinesFl (fail : Nat → Bool) (ls : List (List Char))
    (st : fmtState × Writer) : fmtState × Writer :=
  match ls with
  | [] => st
  | l :: ls => processLinesFl fail ls (processLineFl fail st l)

/-- `fmtState.process` with the stream errors explicit.  `delivered` is what
the scanner yields before `Scan` returns `false`; `readErr` is what
`s.Err()` would return afterwards — the code never calls `s.Err()`, so it
is unused, and the loop is followed by the final flush exactly as on EOF.
The function returns only the `Writer`: no error value reaches the caller
(`process` has no return value and `main` checks nothing). -/
def processFl (charsPerLine : Nat) (delivered : List (List Char))
    (_readErr : Option Unit) (fail : Nat → Bool) : Writer :=
  let (f, w) := processLinesFl fail delivered (initState charsPerLine, ⟨[], []⟩)
  if f.newLineRunes ≠ 0 then (flushLineFl fail f w).2 else w

end MdWrap

namespace MdWrap

/-- Sample state with a pending one-character buffer, used to instantiate
hypotheses of claim theorems at concrete inputs. -/
def pendingState : fmtState :=
  writeToLine (initState 80) ['x']

/-- Sample state inside a zero-indent numbered list with a pending buffer. -/
def pendingListState : fmtState :=
  writeToLine (setListState (initState 80) ⟨listType.numList, 0, 0⟩)
    ['1', '.', ' ', 'x', ' ']

/-- Sample state inside a code block (empty buffer, as in every reachable
in-code state). -/
def codeState : fmtState :=
  { initState 80 with inCode := true }

/-- A produced line respects the width policy: within the limit, or a single
word containing no whitespace at all. -/
def widthOk (cpl : Nat) (o : List Char) : Prop :=
  o.length ≤ cpl ∨ o.all (fun c => !isSpace c) = true

/-- Buffer shape maintained on marker-free prose: empty, or a
space-terminated word sequence that either fits the width (plus the
trailing space) or consists of a single word. -/
def bufInv (cpl : Nat) (buf : List Char) : Prop :=
  buf = [] ∨ ∃ C0 c0, buf = C0 ++ [c0, ' '] ∧ isSpace c0 = false ∧
    (buf.length ≤ cpl + 1 ∨ (C0 ++ [c0]).all (fun c => !isSpace c) = true)

/-- State invariant on marker-free, fence-free input. -/
def plainInv (cpl : Nat) (f : fmtState) : Prop :=
  f.charsPerLine = cpl ∧ f.newLineRunes = f.newLine.length ∧ f.inCode = false ∧
  f.list = listState.empty ∧ f.listPrefixFirst = [] ∧ f.listPrefixRest = [] ∧
  bufInv cpl f.newLine

end MdWrap

/-!
Helper lemmas shared by the claim theorems.
-/

namespace MdWrap

theorem dropWhile_idem (p : Char → Bool) (l : List Char) :
    (l.dropWhile p).dropWhile p = l.dropWhile p := by
  induction l with
  | nil => rfl
  | cons c cs ih =>
    by_cases h : p c
    · simp [List.dropWhile_cons, h, ih]
    · simp [List.dropWhile_cons, h]

theorem trimRight_idem (l : List Char) : trimRight (trimRight l) = trimRight l := by
  simp [trimRight, dropWhile_idem]

theorem trimRight_trimSpace (l : List Char) : trimRight (trimSpace l) = trimSpace l :=
  trimRight_idem _

theorem trimRight_append_space (l : List Char) (c : Char) (h : isSpace c = true) :
    trimRight (l ++ [c]) = trimRight l := by
  simp [trimRight, List.dropWhile_cons, h]

theorem trimRight_append_nonspace (l : List Char) (c : Char) (h : isSpace c = false) :
    trimRight (l ++ [c]) = l ++ [c] := by
  simp [trimRight, List.dropWhile_cons, h]

theorem processWord_fields (qp : List Char) (f : fmtState) (lp : List Char)
    (out : List (List Char)) (w : List Char) :
    (processWord qp (f, lp, out) w).1.charsPerLine = f.charsPerLine ∧
    (processWord qp (f, lp, out) w).1.inCode = f.inCode ∧
    (processWord qp (f, lp, out) w).1.list = f.list ∧
    (processWord qp (f, lp, out) w).1.listPrefixFirst = f.listPrefixFirst ∧
    (processWord qp (f, lp, out) w).1.listPrefixRest = f.listPrefixRest := by
  simp only [processWord, flushLine, writeToLine]
  split_ifs <;> simp

theorem processWord_out_mono (qp : List Char) (f : fmtState) (lp : List Char)
    (out : List (List Char)) (w : List Char) :
    ∃ δ, (processWord qp (f, lp, out) w).2.2 = out ++ δ := by
  simp only [processWord, flushLine, writeToLine]
  split_ifs <;> first
    | exact ⟨[], (List.append_nil _).symm⟩
    | exact ⟨_, rfl⟩
    | exact ⟨_, List.append_assoc _ _ _⟩

theorem processWords_fields (qp : List Char) (ws : List (List Char)) :
    ∀ (f : fmtState) (lp : List Char) (out : List (List Char)),
    (processWords qp ws (f, lp, out)).1.charsPerLine = f.charsPerLine ∧
    (processWords qp ws (f, lp, out)).1.inCode = f.inCode ∧
    (processWords qp ws (f, lp, out)).1.list = f.list ∧
    (processWords qp ws (f, lp, out)).1.listPrefixFirst = f.listPrefixFirst ∧
    (processWords qp ws (f, lp, out)).1.listPrefixRest = f.listPrefixRest := by
  induction ws with
  | nil => intro f lp out; exact ⟨rfl, rfl, rfl, rfl, rfl⟩
  | cons w ws ih =>
    intro f lp out
    have hw := processWord_fields qp f lp out w
    rcases hpw : processWord qp (f, lp, out) w with ⟨f', lp', out'⟩
    rw [hpw] at hw
    have hs := ih f' lp' out'
    simp only [processWords, hpw]
    exact ⟨hs.1.trans hw.1, hs.2.1.trans hw.2.1, hs.2.2.1.trans hw.2.2.1,
      hs.2.2.2.1.trans hw.2.2.2.1, hs.2.2.2.2.trans hw.2.2.2.2⟩

theorem processWords_out_mono (qp : List Char) (ws : List (List Char)) :
    ∀ (f : fmtState) (lp : List Char) (out : List (List Char)),
    ∃ δ, (processWords qp ws (f, lp, out)).2.2 = out ++ δ := by
  induction ws with
  | nil => intro f lp out; exact ⟨[], (List.append_nil _).symm⟩
  | cons w ws ih =>
    intro f lp out
    obtain ⟨δ1, h1⟩ := processWord_out_mono qp f lp out w
    rcases hpw : processWord qp (f, lp, out) w with ⟨f', lp', out'⟩
    rw [hpw] at h1
    dsimp only at h1
    obtain ⟨δ2, h2⟩ := ih f' lp' out'
    refine ⟨δ1 ++ δ2, ?_⟩
    simp only [processWords, hpw]
    rw [h2, h1, List.append_assoc]

theorem processWords_list_eq (q : List Char) (ws : List (List Char)) (f1 : fmtState)
    (lp : List Char) (out1 : List (List Char)) :
    (processWords q ws (f1, lp, out1)).1.list = f1.list :=
  (processWords_fields q ws f1 lp out1).2.2.1

theorem processWords_out_cons (q : List Char) (ws : List (List Char)) (f1 : fmtState)
    (lp : List Char) (out : List (List Char)) (x : List Char) :
    ∃ rest, (processWords q ws (f1, lp, out ++ [x])).2.2 = out ++ x :: rest := by
  obtain ⟨δ, hδ⟩ := processWords_out_mono q ws f1 lp (out ++ [x])
  exact ⟨δ, by rw [hδ, List.append_assoc]; rfl⟩

theorem isDigit_not_isSpace (c : Char) (h : isDigit c = true) : isSpace c = false := by
  simp only [isDigit, Bool.and_eq_true, decide_eq_true_eq] at h
  simp only [isSpace, Bool.or_eq_false_iff, Bool.and_eq_false_iff,
    decide_eq_false_iff_not, not_le, beq_eq_false_iff_ne, ne_eq]
  omega

theorem numMarkerAhead_iff (rest : List Char) :
    numMarkerAhead rest = true ↔
      ∃ c2 rest2, rest = '.' :: c2 :: rest2 ∧ isSpace c2 = true := by
  cases rest with
  | nil => simp [numMarkerAhead]
  | cons c1 rest1 =>
    cases rest1 with
    | nil => simp [numMarkerAhead]
    | cons c2 rest2 =>
      simp only [numMarkerAhead, Bool.and_eq_true, decide_eq_true_eq,
        List.cons.injEq]
      constructor
      · rintro ⟨rfl, h2⟩
        exact ⟨c2, rest2, ⟨rfl, rfl, rfl⟩, h2⟩
      · rintro ⟨c2', rest2', ⟨rfl, rfl, rfl⟩, h2⟩
        exact ⟨rfl, h2⟩

theorem countListIndentGo_digit (pre : List Char) (d : Char) (rest : List Char)
    (hpre : ∀ c ∈ pre, isSpace c = true) (hd : isDigit d = true) :
    ∀ acc : listState, acc.typ = listType.noList →
    ((countListIndentGo (pre ++ d :: rest) acc).typ = listType.numList ↔
      ∃ c2 rest2, rest = '.' :: c2 :: rest2 ∧ isSpace c2 = true) := by
  induction pre with
  | nil =>
    intro acc hacc
    rw [List.nil_append, countListIndentGo]
    rw [if_neg (by simp [isDigit_not_isSpace d hd]), if_pos hd]
    by_cases hnm : numMarkerAhead rest = true
    · rw [if_pos hnm]
      exact iff_of_true rfl ((numMarkerAhead_iff rest).mp hnm)
    · rw [if_neg hnm, ← numMarkerAhead_iff]
      simp [hacc, hnm]
  | cons c pre ih =>
    intro acc hacc
    have hc := hpre c (List.mem_cons_self _ _)
    rw [List.cons_append, countListIndentGo, if_pos hc]
    exact ih (fun x hx => hpre x (List.mem_cons_of_mem _ hx)) _ (by simp [hacc])

theorem trimRight_length_le (l : List Char) : (trimRight l).length ≤ l.length := by
  simpa [trimRight] using (List.dropWhile_sublist isSpace (l := l.reverse)).length_le

theorem mem_trimRight (a : Char) (l : List Char) (h : a ∈ trimRight l) : a ∈ l := by
  simp only [trimRight, List.mem_reverse] at h
  simpa using (List.dropWhile_sublist isSpace (l := l.reverse)).mem h

theorem trimRight_pair (C0 : List Char) (c0 : Char) (h : isSpace c0 = false) :
    trimRight (C0 ++ [c0, ' ']) = C0 ++ [c0] := by
  have : C0 ++ [c0, ' '] = (C0 ++ [c0]) ++ [' '] := by simp
  rw [this, trimRight_append_space _ _ (by decide), trimRight_append_nonspace _ _ h]

theorem bufInv_flush (cpl : Nat) (buf : List Char) (h : bufInv cpl buf) :
    widthOk cpl (trimRight buf) := by
  rcases h with rfl | ⟨C0, c0, rfl, hns, hlen⟩
  · left; simp [trimRight]
  · rw [trimRight_pair _ _ hns]
    rcases hlen with hlen | hall
    · left
      have := List.length_append C0 [c0, ' ']
      simp only [List.length_append, List.length_cons, List.length_singleton] at hlen ⊢
      omega
    · right; exact hall

theorem splitWordsGo_words (cs : List Char) :
    ∀ acc, (∀ c ∈ acc, isSpace c = false) →
    ∀ w ∈ splitWordsGo cs acc, w ≠ [] ∧ w.all (fun c => !isSpace c) = true := by
  induction cs with
  | nil =>
    intro acc hacc w hw
    simp only [splitWordsGo] at hw
    split at hw
    · simp at hw
    · rename_i hne
      simp only [List.mem_singleton] at hw
      subst hw
      refine ⟨by simpa [List.isEmpty_iff] using hne, ?_⟩
      simp only [List.all_eq_true, List.mem_reverse]
      intro c hc; simp [hacc c hc]
  | cons c cs ih =>
    intro acc hacc w hw
    simp only [splitWordsGo] at hw
    split at hw
    · split at hw
      · exact ih [] (by simp) w hw
      · rename_i hne
        rcases List.mem_cons.mp hw with rfl | hw2
        · refine ⟨by simpa [List.isEmpty_iff] using hne, ?_⟩
          simp only [List.all_eq_true, List.mem_reverse]
          intro x hx; simp [hacc x hx]
        · exact ih [] (by simp) w hw2
    · rename_i hns
      refine ih (c :: acc) ?_ w hw
      intro x hx
      rcases List.mem_cons.mp hx with rfl | hx2
      · simpa using hns
      · exact hacc x hx2

theorem splitWords_words (cs : List Char) :
    ∀ w ∈ splitWords cs, w ≠ [] ∧ w.all (fun c => !isSpace c) = true :=
  splitWordsGo_words cs [] (by simp)


theorem countQuoteDepthGo_depth_le (cs : List Char) :
    ∀ (b : Nat) (csa : Bool) (d l : Nat), d ≤ (countQuoteDepthGo cs b csa d l).1 := by
  induction cs with
  | nil => intro b csa d l; exact le_refl d
  | cons r rest ih =>
    intro b csa d l
    simp only [countQuoteDepthGo]
    split
    · split
      · exact ih _ _ _ _
      · exact ih _ _ _ _
    · split
      · exact le_trans (Nat.le_succ d) (ih _ _ _ _)
      · exact le_refl d

theorem countQuoteDepthGo_zero (cs : List Char) :
    ∀ (b d l : Nat), (countQuoteDepthGo cs b true d l).1 = d →
    countQuoteDepthGo cs b true d l = (d, l) := by
  induction cs with
  | nil => intro b d l _; rfl
  | cons r rest ih =>
    intro b d l h
    simp only [countQuoteDepthGo, Bool.not_true, Bool.false_eq_true, if_false] at h ⊢
    by_cases hs : isSpace r = true
    · rw [if_pos hs] at h ⊢
      exact ih _ _ _ h
    · rw [if_neg hs] at h ⊢
      by_cases hq : r = '>'
      · rw [if_pos hq] at h
        have := countQuoteDepthGo_depth_le rest (b + 1) false (d + 1) (b + 1)
        omega
      · rw [if_neg hq]

theorem countQuoteDepth_zero (line : List Char)
    (h : (countQuoteDepth line).1 = 0) : countQuoteDepth line = (0, 0) :=
  countQuoteDepthGo_zero line 0 0 0 h


theorem processWord_flush_step (qp : List Char) (f : fmtState) (lp : List Char)
    (out : List (List Char)) (w : List Char)
    (h1 : f.newLineRunes ≠ 0 ∧ f.newLineRunes + w.length > f.charsPerLine) :
    processWord qp (f, lp, out) w =
      processWord qp ({ f with newLine := [], newLineRunes := 0 }, lp,
        out ++ [trimRight f.newLine]) w := by
  have hz : ¬((0 : Nat) ≠ 0 ∧ (0 : Nat) + w.length > f.charsPerLine) := by simp
  simp only [processWord, flushLine]
  rw [if_pos h1, if_neg hz]


theorem processWord_plainInv_noflush (cpl : Nat) (f : fmtState)
    (out : List (List Char)) (w0 : List Char) (c0 : Char)
    (hf : plainInv cpl f) (hc0 : isSpace c0 = false)
    (hwa : (w0 ++ [c0]).all (fun c => !isSpace c) = true)
    (h1 : ¬(f.newLineRunes ≠ 0 ∧
      f.newLineRunes + (w0 ++ [c0]).length > f.charsPerLine)) :
    plainInv cpl (processWord [] (f, [], out) (w0 ++ [c0])).1 ∧
    (processWord [] (f, [], out) (w0 ++ [c0])).2.1 = [] ∧
    ∀ o ∈ (processWord [] (f, [], out) (w0 ++ [c0])).2.2,
      o ∈ out ∨ widthOk cpl o := by
  obtain ⟨hcpl, hsync, hcode, hlist, hlpf, hlpr, hbuf⟩ := hf
  simp only [processWord, flushLine, writeToLine, if_neg h1]
  by_cases hz : f.newLineRunes = 0
  case pos =>
    have hnl : f.newLine = [] := List.length_eq_zero.mp (hz ▸ hsync).symm
    rw [if_pos hz]
    have hwOk : widthOk cpl (trimRight ((f.newLine ++ [] ++ []) ++ (w0 ++ [c0]))) := by
      right
      simp only [List.all_eq_true]
      intro c hc
      have hmem := mem_trimRight c _ hc
      simp only [hnl, List.nil_append, List.append_nil] at hmem
      exact List.all_eq_true.mp hwa c hmem
    have hBuf2 : bufInv cpl ((f.newLine ++ [] ++ []) ++ (w0 ++ [c0]) ++ [' ']) := by
      right
      refine ⟨w0, c0, by simp [hnl], hc0, Or.inr (by simpa using hwa)⟩
    by_cases ha : (!f.appliedFirstList) = true
    · rw [if_pos ha]
      by_cases hes : endsSentence (w0 ++ [c0]) = true
      · rw [if_pos hes]
        refine ⟨⟨hcpl, by simp, hcode, hlist, hlpf, hlpr, Or.inl rfl⟩, hlpr, ?_⟩
        intro o ho
        rcases List.mem_append.mp ho with h | h
        · exact Or.inl h
        · simp only [List.mem_singleton] at h
          subst h
          exact Or.inr hwOk
      · rw [if_neg hes]
        refine ⟨⟨hcpl, by (simp [hsync]; try omega), hcode, hlist, hlpf, hlpr, hBuf2⟩, hlpr, ?_⟩
        exact fun o ho => Or.inl ho
    · rw [if_neg ha]
      by_cases hes : endsSentence (w0 ++ [c0]) = true
      · rw [if_pos hes]
        refine ⟨⟨hcpl, by simp, hcode, hlist, hlpf, hlpr, Or.inl rfl⟩, rfl, ?_⟩
        intro o ho
        rcases List.mem_append.mp ho with h | h
        · exact Or.inl h
        · simp only [List.mem_singleton] at h
          subst h
          exact Or.inr hwOk
      · rw [if_neg hes]
        refine ⟨⟨hcpl, by (simp [hsync]; try omega), hcode, hlist, hlpf, hlpr, hBuf2⟩, rfl, ?_⟩
        exact fun o ho => Or.inl ho
  case neg =>
    rw [if_neg hz]
    have hfit : f.newLineRunes + (w0 ++ [c0]).length ≤ f.charsPerLine := by
      rcases Decidable.not_and_iff_or_not.mp h1 with h | h
      · exact absurd hz (by simpa using h)
      · omega
    by_cases hes : endsSentence (w0 ++ [c0]) = true
    · rw [if_pos hes]
      refine ⟨⟨hcpl, by simp, hcode, hlist, hlpf, hlpr, Or.inl rfl⟩, rfl, ?_⟩
      intro o ho
      rcases List.mem_append.mp ho with h | h
      · exact Or.inl h
      · simp only [List.mem_singleton] at h
        subst h
        right
        left
        have h2 := trimRight_length_le (f.newLine ++ (w0 ++ [c0]))
        simp only [List.length_append, List.length_cons, List.length_nil] at h2 hfit
        omega
    · rw [if_neg hes]
      refine ⟨⟨hcpl, by (simp [hsync]; try omega), hcode, hlist, hlpf, hlpr, ?_⟩, rfl, ?_⟩
      · right
        refine ⟨f.newLine ++ w0, c0, by simp, hc0, Or.inl ?_⟩
        simp only [List.length_append, List.length_cons, List.length_nil,
          List.length_singleton] at hfit ⊢
        omega
      · exact fun o ho => Or.inl ho


theorem processWord_plainInv (cpl : Nat) (f : fmtState) (out : List (List Char))
    (w : List Char) (hf : plainInv cpl f) (hw : w ≠ [])
    (hwa : w.all (fun c => !isSpace c) = true) :
    plainInv cpl (processWord [] (f, [], out) w).1 ∧
    (processWord [] (f, [], out) w).2.1 = [] ∧
    ∀ o ∈ (processWord [] (f, [], out) w).2.2, o ∈ out ∨ widthOk cpl o := by
  obtain ⟨w0, c0, rfl⟩ : ∃ w0 c0, w = w0 ++ [c0] := by
    rcases List.eq_nil_or_concat w with rfl | ⟨L, b, h⟩
    · exact absurd rfl hw
    · exact ⟨L, b, by simpa using h⟩
  have hc0 : isSpace c0 = false := by
    have := List.all_eq_true.mp hwa c0 (by simp)
    simpa using this
  by_cases h1 : f.newLineRunes ≠ 0 ∧
      f.newLineRunes + (w0 ++ [c0]).length > f.charsPerLine
  · rw [processWord_flush_step [] f [] out _ h1]
    have hf' : plainInv cpl { f with newLine := [], newLineRunes := 0 } := by
      obtain ⟨hcpl, hsync, hcode, hlist, hlpf, hlpr, hbuf⟩ := hf
      exact ⟨hcpl, by simp, hcode, hlist, hlpf, hlpr, Or.inl rfl⟩
    obtain ⟨ha, hb, hc⟩ := processWord_plainInv_noflush cpl _
      (out ++ [trimRight f.newLine]) w0 c0 hf' hc0 hwa (by simp)
    refine ⟨ha, hb, ?_⟩
    intro o ho
    rcases hc o ho with h | h
    · rcases List.mem_append.mp h with h | h
      · exact Or.inl h
      · simp only [List.mem_singleton] at h
        subst h
        exact Or.inr (bufInv_flush cpl f.newLine hf.2.2.2.2.2.2)
    · exact Or.inr h
  · exact processWord_plainInv_noflush cpl f out w0 c0 hf hc0 hwa h1

theorem processWords_plainInv (cpl : Nat) (ws : List (List Char))
    (hws : ∀ w ∈ ws, w ≠ [] ∧ w.all (fun c => !isSpace c) = true) :
    ∀ (f : fmtState) (out : List (List Char)), plainInv cpl f →
    plainInv cpl (processWords [] ws (f, [], out)).1 ∧
    ∀ o ∈ (processWords [] ws (f, [], out)).2.2, o ∈ out ∨ widthOk cpl o := by
  induction ws with
  | nil => exact fun f out hf => ⟨hf, fun o ho => Or.inl ho⟩
  | cons w ws ih =>
    intro f out hf
    obtain ⟨hne, hall⟩ := hws w (List.mem_cons_self _ _)
    obtain ⟨ha, hb, hc⟩ := processWord_plainInv cpl f out w hf hne hall
    rcases hpw : processWord [] (f, [], out) w with ⟨f1, lp1, out1⟩
    rw [hpw] at ha hb hc
    dsimp only at ha hb hc
    subst hb
    obtain ⟨hA, hC⟩ := ih (fun x hx => hws x (List.mem_cons_of_mem _ hx)) f1 out1 ha
    simp only [processWords, hpw]
    refine ⟨hA, ?_⟩
    intro o ho
    rcases hC o ho with h | h
    · exact hc o h
    · exact Or.inr h


theorem processLine_plainInv (cpl : Nat) (f : fmtState) (out : List (List Char))
    (line : List Char) (hf : plainInv cpl f)
    (hnf : fenceMarker.isPrefixOf (trimSpace line) = false)
    (hq : (countQuoteDepth line).1 = 0)
    (hl : (countListIndent line).typ = listType.noList) :
    plainInv cpl (processLine (f, out) line).1 ∧
    ∀ o ∈ (processLine (f, out) line).2, o ∈ out ∨ widthOk cpl o := by
  obtain ⟨hcpl, hsync, hcode, hlist, hlpf, hlpr, hbuf⟩ := hf
  have hqd : countQuoteDepth line = (0, 0) := countQuoteDepth_zero line hq
  simp only [processLine]
  rw [if_neg (by simp [hnf])]
  by_cases hblank : (trimSpace line).isEmpty = true
  · rw [if_pos hblank]
    by_cases hz : f.newLineRunes = 0
    · rw [if_neg (by simp [hz]), flushLine]
      have hnl : f.newLine = [] := List.length_eq_zero.mp (hz ▸ hsync).symm
      constructor
      · exact ⟨by simp [setListState, listState.empty, hcpl],
          by simp [setListState, listState.empty],
          by simp [setListState, listState.empty, hcode],
          by simp [setListState, listState.empty],
          by simp [setListState, listState.empty],
          by simp [setListState, listState.empty], Or.inl rfl⟩
      · intro o ho
        rcases List.mem_append.mp ho with h | h
        · exact Or.inl h
        · simp only [List.mem_singleton] at h
          subst h
          right
          left
          simp [setListState, listState.empty, hnl, trimRight]
    · rw [if_pos hz, flushLine, flushLine]
      constructor
      · exact ⟨by simp [setListState, listState.empty, hcpl],
          by simp [setListState, listState.empty],
          by simp [setListState, listState.empty, hcode],
          by simp [setListState, listState.empty],
          by simp [setListState, listState.empty],
          by simp [setListState, listState.empty], Or.inl rfl⟩
      · intro o ho
        dsimp only at ho
        rcases List.mem_append.mp ho with h | h
        · rcases List.mem_append.mp h with h2 | h2
          · exact Or.inl h2
          · simp only [List.mem_singleton] at h2
            subst h2
            exact Or.inr (bufInv_flush cpl f.newLine hbuf)
        · simp only [List.mem_singleton] at h
          subst h
          right
          left
          simp [setListState, listState.empty, trimRight]
  · rw [if_neg hblank, if_neg (by simp [hcode])]
    dsimp only
    simp only [hqd, List.replicate_zero, List.flatten_nil, dropBytes, hlist,
      listState.empty, listType.symbol, listType.runes, List.length_nil]
    rw [if_neg (by simp [hl]), if_neg (by simp [hlist, listState.empty]),
      if_neg (by simp [hlist, listState.empty])]
    dsimp only
    simp only [hlist, listState.empty, listType.symbol, List.length_nil,
      Nat.add_zero, dropBytes]
    exact processWords_plainInv cpl (splitWords line) (splitWords_words line) f out
      ⟨hcpl, hsync, hcode, hlist, hlpf, hlpr, hbuf⟩


theorem processLines_plainInv (cpl : Nat) (ls : List (List Char))
    (hls : ∀ l ∈ ls, fenceMarker.isPrefixOf (trimSpace l) = false ∧
      (countQuoteDepth l).1 = 0 ∧ (countListIndent l).typ = listType.noList) :
    ∀ (f : fmtState) (out : List (List Char)), plainInv cpl f →
    plainInv cpl (processLines ls (f, out)).1 ∧
    ∀ o ∈ (processLines ls (f, out)).2, o ∈ out ∨ widthOk cpl o := by
  induction ls with
  | nil => exact fun f out hf => ⟨hf, fun o ho => Or.inl ho⟩
  | cons l ls ih =>
    intro f out hf
    obtain ⟨h1, h2, h3⟩ := hls l (List.mem_cons_self _ _)
    obtain ⟨ha, hc⟩ := processLine_plainInv cpl f out l hf h1 h2 h3
    rcases hpl : processLine (f, out) l with ⟨f1, out1⟩
    rw [hpl] at ha hc
    dsimp only at ha hc
    obtain ⟨hA, hC⟩ := ih (fun x hx => hls x (List.mem_cons_of_mem _ hx)) f1 out1 ha
    simp only [processLines, hpl]
    refine ⟨hA, ?_⟩
    intro o ho
    rcases hC o ho with h | h
    · exact hc o h
    · exact Or.inr h

theorem process_widthOk (cpl : Nat) (lines : List (List Char))
    (hls : ∀ l ∈ lines, fenceMarker.isPrefixOf (trimSpace l) = false ∧
      (countQuoteDepth l).1 = 0 ∧ (countListIndent l).typ = listType.noList) :
    ∀ o ∈ process cpl lines, widthOk cpl o := by
  have hinit : plainInv cpl (initState cpl) :=
    ⟨rfl, rfl, rfl, rfl, rfl, rfl, Or.inl rfl⟩
  obtain ⟨hA, hC⟩ := processLines_plainInv cpl lines hls (initState cpl) [] hinit
  intro o ho
  simp only [process] at ho
  rcases hfin : processLines lines (initState cpl, []) with ⟨f1, out1⟩
  rw [hfin] at ho hA hC
  dsimp only at ho hA hC
  by_cases hz : f1.newLineRunes ≠ 0
  · rw [if_pos hz, flushLine] at ho
    dsimp only at ho
    rcases List.mem_append.mp ho with h | h
    · rcases hC o h with h2 | h2
      · simp at h2
      · exact h2
    · simp only [List.mem_singleton] at h
      subst h
      exact bufInv_flush cpl f1.newLine hA.2.2.2.2.2.2
  · rw [if_neg hz] at ho
    rcases hC o ho with h2 | h2
    · simp at h2
    · exact h2

theorem processWordFl_corr (fail : Nat → Bool) (qp : List Char) (f : fmtState)
    (lp : List Char) (w : Writer) (out : List (List Char)) (wd : List Char)
    (h : w.attempted = out) :
    (processWordFl fail qp (f, lp, w) wd).1 = (processWord qp (f, lp, out) wd).1 ∧
    (processWordFl fail qp (f, lp, w) wd).2.1 = (processWord qp (f, lp, out) wd).2.1 ∧
    ((processWordFl fail qp (f, lp, w) wd).2.2).attempted =
      (processWord qp (f, lp, out) wd).2.2 := by
  subst h
  simp only [processWordFl, processWord, flushLineFl, flushLine, writeFl, writeToLine]
  split_ifs <;> simp


theorem processWordsFl_corr (fail : Nat → Bool) (qp : List Char)
    (ws : List (List Char)) :
    ∀ (f : fmtState) (lp : List Char) (w : Writer) (out : List (List Char)),
    w.attempted = out →
    (processWordsFl fail qp ws (f, lp, w)).1 =
      (processWords qp ws (f, lp, out)).1 ∧
    (processWordsFl fail qp ws (f, lp, w)).2.1 =
      (processWords qp ws (f, lp, out)).2.1 ∧
    ((processWordsFl fail qp ws (f, lp, w)).2.2).attempted =
      (processWords qp ws (f, lp, out)).2.2 := by
  induction ws with
  | nil => exact fun f lp w out h => ⟨rfl, rfl, h⟩
  | cons wd ws ih =>
    intro f lp w out h
    obtain ⟨h1, h2, h3⟩ := processWordFl_corr fail qp f lp w out wd h
    rcases hfl : processWordFl fail qp (f, lp, w) wd with ⟨f1, lp1, w1⟩
    rcases hpw : processWord qp (f, lp, out) wd with ⟨f2, lp2, out2⟩
    rw [hfl, hpw] at h1 h2 h3
    dsimp only at h1 h2 h3
    subst h1
    subst h2
    simp only [processWordsFl, processWords, hfl, hpw]
    exact ih f1 lp1 w1 out2 h3


set_option maxHeartbeats 2000000 in
theorem processLineFl_corr (fail : Nat → Bool) (f : fmtState) (w : Writer)
    (out : List (List Char)) (line : List Char) (h : w.attempted = out) :
    (processLineFl fail (f, w) line).1 = (processLine (f, out) line).1 ∧
    ((processLineFl fail (f, w) line).2).attempted =
      (processLine (f, out) line).2 := by
  subst h
  simp only [processLineFl, processLine, flushLineFl, flushLine, writeFl, writeToLine]
  split_ifs
  all_goals try exact ⟨rfl, rfl⟩
  all_goals try
    refine ⟨(processWordsFl_corr fail _ _ _ _ _ _ ?_).1,
      (processWordsFl_corr fail _ _ _ _ _ _ ?_).2.2⟩ <;> rfl


theorem processLinesFl_corr (fail : Nat → Bool) (ls : List (List Char)) :
    ∀ (f : fmtState) (w : Writer) (out : List (List Char)), w.attempted = out →
    (processLinesFl fail ls (f, w)).1 = (processLines ls (f, out)).1 ∧
    ((processLinesFl fail ls (f, w)).2).attempted = (processLines ls (f, out)).2 := by
  induction ls with
  | nil => exact fun f w out h => ⟨rfl, h⟩
  | cons l ls ih =>
    intro f w out h
    obtain ⟨h1, h2⟩ := processLineFl_corr fail f w out l h
    rcases hfl : processLineFl fail (f, w) l with ⟨f1, w1⟩
    rcases hpl : processLine (f, out) l with ⟨f2, out2⟩
    rw [hfl, hpl] at h1 h2
    dsimp only at h1 h2
    subst h1
    simp only [processLinesFl, processLines, hfl, hpl]
    exact ih f1 w1 out2 h2

theorem processFl_attempted (cpl : Nat) (delivered : List (List Char))
    (readErr : Option Unit) (fail : Nat → Bool) :
    (processFl cpl delivered readErr fail).attempted = process cpl delivered := by
  obtain ⟨h1, h2⟩ := processLinesFl_corr fail delivered (initState cpl)
    ⟨[], []⟩ [] rfl
  simp only [processFl, process]
  rcases hfl : processLinesFl fail delivered (initState cpl, ⟨[], []⟩) with ⟨f1, w1⟩
  rcases hpl : processLines delivered (initState cpl, []) with ⟨f2, out2⟩
  rw [hfl, hpl] at h1 h2
  dsimp only at h1 h2 ⊢
  subst h1
  by_cases hz : f1.newLineRunes ≠ 0
  · rw [if_pos hz, if_pos hz, flushLineFl, flushLine, writeFl]
    dsimp only
    rw [h2]
  · rw [if_neg hz, if_neg hz]
    exact h2

end MdWrap



/-!
Claim theorems.
-/

namespace MdWrap

/-- Claim C3: `endsSentence` returns true exactly when the word ends with
".", ".\"" or ".'" and does not end with one of the case-sensitive
abbreviation suffixes "e.g.", "vs.", "i.e."; the abbreviation check
overrides the generic period match. -/
theorem claim_C3 (w : List Char) :
    endsSentence w = true ↔
      (['.'] <:+ w ∨ ['.', '"'] <:+ w ∨ ['.', '\''] <:+ w) ∧
      ¬(['e', '.', 'g', '.'] <:+ w) ∧ ¬(['v', 's', '.'] <:+ w) ∧
      ¬(['i', '.', 'e', '.'] <:+ w) := by
  simp [endsSentence, and_assoc, or_assoc, Bool.eq_false_iff]

/-- Claim C9: on the line "> > hello world" the quote-depth scan yields
depth 2 with a 4-byte consumed prefix, and every output line produced for
that content starts with exactly "> > " — both at a width where the content
fits on one line and at a width that forces a wrap. -/
theorem claim_C9 :
    countQuoteDepth ("> > hello world".toList) = (2, 4) ∧
    process 80 ["> > hello world".toList] = ["> > hello world".toList] ∧
    process 10 ["> > hello world".toList] =
      ["> > hello".toList, "> > world".toList] ∧
    (∀ o ∈ process 80 ["> > hello world".toList],
      ("> > ".toList).isPrefixOf o = true) ∧
    (∀ o ∈ process 10 ["> > hello world".toList],
      ("> > ".toList).isPrefixOf o = true) := by
  decide

/-- Claim C1 counterexample: a quote-depth change (0 on the first line, 1 on
the second) does not flush the pending buffer — the two lines' contents are
merged into one reflowed output line, so the buffer did span a quote-depth
boundary. -/
theorem claim_C1_counterexample :
    process 80 ["hello".toList, "> world".toList] = ["hello world".toList] ∧
    (countQuoteDepth ("hello".toList)).1 = 0 ∧
    (countQuoteDepth ("> world".toList)).1 = 1 := by
  decide

/-- Claim C1, amended: with a pending buffer (outside code mode), a
code-fence line, a blank line, a new list marker, or an active list whose
continuation indent does not match all flush the pending buffer before any
of the current line's content is appended: the old buffer is emitted intact
as the next output line.  (A quote-depth change alone, part of the original
claim, forces no flush — see the counterexample.) -/
theorem claim_C1_thm (f : fmtState) (out : List (List Char)) (line : List Char)
    (hpend : f.newLineRunes ≠ 0) (hcode : f.inCode = false)
    (hb : fenceMarker.isPrefixOf (trimSpace line) = true ∨
          trimSpace line = [] ∨
          (countListIndent (dropBytes (countQuoteDepth line).2 line)).typ ≠
            listType.noList ∨
          (f.list.typ ≠ listType.noList ∧
           (countListIndent (dropBytes (countQuoteDepth line).2 line)).indent ≠
             f.list.indent + f.list.typ.runes + 1)) :
    ∃ rest, (processLine (f, out) line).2 = out ++ trimRight f.newLine :: rest := by
  by_cases hf : fenceMarker.isPrefixOf (trimSpace line) = true
  · refine ⟨[trimRight (trimSpace line)], ?_⟩
    simp [processLine, hf, hcode, hpend, flushLine, writeToLine, setListState,
      listState.empty, trimRight_trimSpace]
  · by_cases hblank : (trimSpace line).isEmpty = true
    · refine ⟨[trimRight []], ?_⟩
      simp [processLine, hf, hblank, hpend, flushLine, writeToLine, setListState,
        listState.empty]
    · by_cases hnl : (countListIndent (dropBytes (countQuoteDepth line).2 line)).typ =
          listType.noList
      · have hmis : f.list.typ ≠ listType.noList ∧
            (countListIndent (dropBytes (countQuoteDepth line).2 line)).indent ≠
              f.list.indent + f.list.typ.runes + 1 := by
          rcases hb with hb | hb | hb | hb
          · exact absurd hb hf
          · exact absurd (by simp [hb]) hblank
          · exact absurd hnl hb
          · exact hb
        simp only [processLine]
        rw [if_neg (by simp [hf]), if_neg (by simp [hblank]), if_neg (by simp [hcode])]
        simp only [hnl, hpend, hmis.1, hmis.2, ne_eq, not_true_eq_false, not_false_eq_true,
          if_true, if_false, and_true, ite_not]
        obtain ⟨δ, hδ⟩ := processWords_out_mono
          ((List.replicate (countQuoteDepth line).1 ['>', ' ']).flatten)
          (splitWords (dropBytes
            ((setListState { f with newLine := [], newLineRunes := 0 } listState.empty).list.indentBytes +
             (setListState { f with newLine := [], newLineRunes := 0 } listState.empty).list.typ.symbol.length)
            (dropBytes (countQuoteDepth line).2 line)))
          (setListState { f with newLine := [], newLineRunes := 0 } listState.empty)
          _ (out ++ [trimRight f.newLine])
        refine ⟨δ, ?_⟩
        simp only [flushLine]
        rw [hδ]
        simp
      · simp only [processLine]
        rw [if_neg (by simp [hf]), if_neg (by simp [hblank]), if_neg (by simp [hcode])]
        simp only [hnl, hpend, ne_eq, not_false_eq_true, if_true]
        obtain ⟨δ, hδ⟩ := processWords_out_mono
          ((List.replicate (countQuoteDepth line).1 ['>', ' ']).flatten)
          (splitWords (dropBytes
            ((setListState { f with newLine := [], newLineRunes := 0 }
               (countListIndent (dropBytes (countQuoteDepth line).2 line))).list.indentBytes +
             (setListState { f with newLine := [], newLineRunes := 0 }
               (countListIndent (dropBytes (countQuoteDepth line).2 line))).list.typ.symbol.length)
            (dropBytes (countQuoteDepth line).2 line)))
          (setListState { f with newLine := [], newLineRunes := 0 }
            (countListIndent (dropBytes (countQuoteDepth line).2 line)))
          _ (out ++ [trimRight f.newLine])
        refine ⟨δ, ?_⟩
        simp only [flushLine]
        rw [hδ]
        simp

/-- Claim C1 witness: the amended flush theorem applied at a concrete
pending state and a blank input line. -/
theorem claim_C1_witness :
    ∃ rest, (processLine (pendingState, []) [' ']).2 =
      [] ++ trimRight pendingState.newLine :: rest :=
  claim_C1_thm pendingState [] [' '] (by decide) (by decide) (Or.inr (Or.inl (by decide)))

/-- Claim C4: a word satisfying the sentence-end predicate is appended and
the line is then flushed at once — the buffer is left empty and a new
output line ending in exactly that word is emitted; a word failing the
predicate is followed by a single space separator in the buffer and no
sentence flush.  Consequently "This is one. This is two." yields two output
lines, one per sentence, at a width that would fit both. -/
theorem claim_C4 :
    (∀ (qp : List Char) (f : fmtState) (lp : List Char) (out : List (List Char))
        (w0 : List Char) (c : Char),
      endsSentence (w0 ++ [c]) = true → isSpace c = false →
      (processWord qp (f, lp, out) (w0 ++ [c])).1.newLine = [] ∧
      (processWord qp (f, lp, out) (w0 ++ [c])).1.newLineRunes = 0 ∧
      out.length < (processWord qp (f, lp, out) (w0 ++ [c])).2.2.length ∧
      ∃ B, ((processWord qp (f, lp, out) (w0 ++ [c])).2.2).getLast? =
        some (B ++ (w0 ++ [c]))) ∧
    (∀ (qp : List Char) (f : fmtState) (lp : List Char) (out : List (List Char))
        (w : List Char),
      endsSentence w = false →
      (∃ B, (processWord qp (f, lp, out) w).1.newLine = B ++ w ++ [' ']) ∧
      (processWord qp (f, lp, out) w).2.2.length ≤ out.length + 1) ∧
    process 80 ["This is one. This is two.".toList] =
      ["This is one.".toList, "This is two.".toList] := by
  refine ⟨?_, ?_, by decide⟩
  · intro qp f lp out w0 c hs hc
    simp only [processWord, flushLine, writeToLine, hs, if_true]
    split_ifs <;>
      refine ⟨by trivial, by trivial, by simp, ?_, ?_⟩
    all_goals dsimp only
    all_goals try rw [List.getLast?_concat, ← List.append_assoc,
      trimRight_append_nonspace _ _ hc, List.append_assoc]
    all_goals try exact rfl
  · intro qp f lp out w hs
    simp only [processWord, flushLine, writeToLine, hs, Bool.false_eq_true, if_false]
    split_ifs
    all_goals dsimp only
    all_goals refine ⟨⟨?_, ?_⟩, by simp⟩
    all_goals try exact rfl

/-- Claim C4 witness: the two word-level parts of the claim applied at a
fresh state, with the sentence-ending word "one." and the ordinary word
"one". -/
theorem claim_C4_witness :
    ((processWord [] (initState 80, [], []) ("one".toList ++ ['.'])).1.newLine = [] ∧
     (processWord [] (initState 80, [], []) ("one".toList ++ ['.'])).1.newLineRunes = 0 ∧
     List.length ([] : List (List Char)) <
       (processWord [] (initState 80, [], []) ("one".toList ++ ['.'])).2.2.length ∧
     ∃ B, ((processWord [] (initState 80, [], []) ("one".toList ++ ['.'])).2.2).getLast? =
       some (B ++ ("one".toList ++ ['.']))) ∧
    ((∃ B, (processWord [] (initState 80, [], []) ("one".toList)).1.newLine =
        B ++ "one".toList ++ [' ']) ∧
     (processWord [] (initState 80, [], []) ("one".toList)).2.2.length ≤
       List.length ([] : List (List Char)) + 1) :=
  ⟨claim_C4.1 [] (initState 80) [] [] ("one".toList) '.' (by decide) (by decide),
   claim_C4.2.1 [] (initState 80) [] [] ("one".toList) (by decide)⟩

/-- Claim C5 counterexample: a fence line with leading whitespace is not
emitted verbatim — the engine emits the whitespace-trimmed fence line. -/
theorem claim_C5_counterexample :
    process 80 ["  ```".toList] = ["```".toList] ∧
    "```".toList ≠ "  ```".toList := by
  decide

/-- Claim C5, amended: a line whose trimmed content starts with the fence
marker toggles the code flag; on toggling from off to on any pending
buffered output is flushed first and the list state is reset; and in both
directions the TRIMMED fence line is emitted standalone, never merged into
a reflowed line.  (Verbatim emission, as originally claimed, fails for
fences with leading whitespace — see the counterexample.)  The hypothesis
on in-code states holds in every reachable state: code lines are flushed
as soon as they are written. -/
theorem claim_C5_thm (f : fmtState) (out : List (List Char)) (line : List Char)
    (hf : fenceMarker.isPrefixOf (trimSpace line) = true)
    (hsync : f.newLineRunes = f.newLine.length)
    (hEmpty : f.inCode = true → f.newLineRunes = 0) :
    (processLine (f, out) line).1.inCode = !f.inCode ∧
    (processLine (f, out) line).1.newLine = [] ∧
    (processLine (f, out) line).1.newLineRunes = 0 ∧
    (processLine (f, out) line).2 =
      out ++ (if f.inCode = false ∧ f.newLineRunes ≠ 0
              then [trimRight f.newLine] else []) ++ [trimSpace line] ∧
    (f.inCode = false → (processLine (f, out) line).1.list = listState.empty) := by
  by_cases hc : f.inCode = true
  · have h0 : f.newLineRunes = 0 := hEmpty hc
    have hnl : f.newLine = [] := List.length_eq_zero.mp (h0 ▸ hsync).symm
    simp [processLine, hf, hc, h0, hnl, flushLine, writeToLine, trimRight_trimSpace]
  · by_cases hp : f.newLineRunes = 0
    · have hnl : f.newLine = [] := List.length_eq_zero.mp (hp ▸ hsync).symm
      simp [processLine, hf, hc, hp, hnl, flushLine, writeToLine, setListState,
        listState.empty, trimRight_trimSpace]
    · simp [processLine, hf, hc, hp, flushLine, writeToLine, setListState,
        listState.empty, trimRight_trimSpace]

/-- Claim C5 witness: the amended fence theorem applied to a pending state
and the indented fence line "  ```go". -/
theorem claim_C5_witness :
    (processLine (pendingState, []) ("  ```go".toList)).1.inCode = !pendingState.inCode ∧
    (processLine (pendingState, []) ("  ```go".toList)).1.newLine = [] ∧
    (processLine (pendingState, []) ("  ```go".toList)).1.newLineRunes = 0 ∧
    (processLine (pendingState, []) ("  ```go".toList)).2 =
      [] ++ (if pendingState.inCode = false ∧ pendingState.newLineRunes ≠ 0
             then [trimRight pendingState.newLine] else []) ++
        [trimSpace ("  ```go".toList)] ∧
    (pendingState.inCode = false →
      (processLine (pendingState, []) ("  ```go".toList)).1.list = listState.empty) :=
  claim_C5_thm pendingState [] ("  ```go".toList) (by decide) (by decide) (by decide)

/-- Claim C6 counterexample: a code line with trailing whitespace is not
emitted unmodified — `flushLine` trims trailing whitespace from every
written line, code lines included. -/
theorem claim_C6_counterexample :
    process 80 ["```".toList, "x  ".toList, "```".toList] =
      ["```".toList, "x".toList, "```".toList] ∧
    "x".toList ≠ "x  ".toList := by
  decide

/-- Claim C6, amended: while the code-block flag is set, a non-fence,
non-blank line is emitted as its own output line with only trailing
whitespace trimmed and is otherwise unmodified — no reflow and no quote or
list interpretation (the engine state is returned unchanged), regardless of
width or punctuation.  The empty-buffer hypotheses hold in every reachable
in-code state. -/
theorem claim_C6_thm (f : fmtState) (out : List (List Char)) (line : List Char)
    (hc : f.inCode = true)
    (hnf : fenceMarker.isPrefixOf (trimSpace line) = false)
    (hnb : trimSpace line ≠ [])
    (hbuf : f.newLine = []) (hruns : f.newLineRunes = 0) :
    processLine (f, out) line = (f, out ++ [trimRight line]) := by
  obtain ⟨cpl, nl, nr, ic, lst, afl, lpf, lpr⟩ := f
  simp only at hc hbuf hruns
  subst hc hbuf hruns
  simp [processLine, hnf, hnb, flushLine, writeToLine]

/-- Claim C6 witness: the amended passthrough theorem applied to the sample
in-code state and an over-long, punctuated code line with trailing blanks. -/
theorem claim_C6_witness :
    processLine (codeState, []) ("if err != nil. return err.  ".toList) =
      (codeState, [] ++ [trimRight ("if err != nil. return err.  ".toList)]) :=
  claim_C6_thm codeState [] ("if err != nil. return err.  ".toList)
    (by decide) (by decide) (by decide) (by decide) (by decide)

end MdWrap

namespace MdWrap

/-- Claim C7: a numbered list item "1. " at indent 0 whose text wraps yields
a first output line prefixed "1. " and continuation lines prefixed with
exactly three spaces (shown at width 10 with two wrapped continuations);
and while a list is active, a line with no list marker whose indent is not
previous indent + marker width + 1 ends the list: the pending buffer is
flushed and the list state is reset to the no-list state. -/
theorem claim_C7 :
    process 10 ["1. aaa bbb ccc ddd eee".toList] =
      ["1. aaa bbb".toList, "   ccc ddd".toList, "   eee".toList] ∧
    (∀ (f : fmtState) (out : List (List Char)) (line : List Char),
      f.inCode = false →
      fenceMarker.isPrefixOf (trimSpace line) = false →
      trimSpace line ≠ [] →
      f.list.typ ≠ listType.noList →
      (countListIndent (dropBytes (countQuoteDepth line).2 line)).typ =
        listType.noList →
      (countListIndent (dropBytes (countQuoteDepth line).2 line)).indent ≠
        f.list.indent + f.list.typ.runes + 1 →
      (processLine (f, out) line).1.list = listState.empty ∧
      (f.newLineRunes ≠ 0 →
        ∃ rest, (processLine (f, out) line).2 =
          out ++ trimRight f.newLine :: rest)) := by
  refine ⟨by decide, ?_⟩
  intro f out line hcode hnf hnb hactive hnl hmis
  simp only [processLine]
  rw [if_neg (by simp [hnf]), if_neg (by simp [hnb]), if_neg (by simp [hcode])]
  simp only [hnl, hactive, hmis, ne_eq, not_true_eq_false, not_false_eq_true, if_true,
    if_false, and_true, and_self, ite_not]
  constructor
  · rw [processWords_list_eq]
    simp [setListState, listState.empty]
  · intro hp
    simp only [if_neg hp, flushLine]
    exact processWords_out_cons _ _ _ _ out (trimRight f.newLine)

/-- Claim C7 witness: the list-ending rule applied to a concrete in-list
pending state and the marker-less line "badindent" (indent 0, where the
expected continuation indent is 3). -/
theorem claim_C7_witness :
    (processLine (pendingListState, []) ("badindent".toList)).1.list = listState.empty ∧
    (pendingListState.newLineRunes ≠ 0 →
      ∃ rest, (processLine (pendingListState, []) ("badindent".toList)).2 =
        [] ++ trimRight pendingListState.newLine :: rest) :=
  claim_C7.2 pendingListState [] ("badindent".toList) (by decide) (by decide)
    (by decide) (by decide) (by decide) (by decide)

/-- Claim C10: the list classifier recognizes only single-digit numbered
markers — for a line whose first non-whitespace character is a digit, it
returns the numbered-list kind exactly when that digit is immediately
followed by '.' and then a whitespace character; "12. item" yields the
no-list kind while still reporting the leading-whitespace indent. -/
theorem claim_C10 :
    (∀ (pre : List Char) (d : Char) (rest : List Char),
      (∀ c ∈ pre, isSpace c = true) → isDigit d = true →
      ((countListIndent (pre ++ d :: rest)).typ = listType.numList ↔
        ∃ c2 rest2, rest = '.' :: c2 :: rest2 ∧ isSpace c2 = true)) ∧
    countListIndent ("12. item".toList) = ⟨listType.noList, 0, 0⟩ ∧
    countListIndent ("  12. item".toList) = ⟨listType.noList, 2, 2⟩ := by
  refine ⟨?_, by decide, by decide⟩
  intro pre d rest hpre hd
  exact countListIndentGo_digit pre d rest hpre hd listState.empty rfl

/-- Claim C10 witness: the single-digit marker rule applied at the concrete
line " 3. x" (one space of indent, digit, period, space, content). -/
theorem claim_C10_witness :
    (countListIndent ([' '] ++ '3' :: (". x".toList))).typ = listType.numList ↔
      ∃ c2 rest2, ". x".toList = '.' :: c2 :: rest2 ∧ isSpace c2 = true :=
  claim_C10.1 [' '] '3' (". x".toList) (by decide) (by decide)

/-- Claim C2 counterexample: a code-fence line longer than 80 runes whose
info string contains spaces has no leading quote or list markers, yet it is
emitted as a single output line exceeding the width that is not a lone
word.  "For input without leading quote or list markers no output line
exceeds the width except a lone over-long word" therefore fails once code
fences are allowed in the input. -/
theorem claim_C2_counterexample :
    (countQuoteDepth ("``` a fence line with an information string long enough to exceed the eighty character width".toList)).1 = 0 ∧
    (countListIndent ("``` a fence line with an information string long enough to exceed the eighty character width".toList)).typ = listType.noList ∧
    process 80 ["``` a fence line with an information string long enough to exceed the eighty character width".toList] =
      ["``` a fence line with an information string long enough to exceed the eighty character width".toList] ∧
    80 < ("``` a fence line with an information string long enough to exceed the eighty character width".toList).length ∧
    ∃ c ∈ "``` a fence line with an information string long enough to exceed the eighty character width".toList,
      isSpace c = true := by
  decide

/-- Claim C2, amended: before a word is appended, if the buffer is
non-empty and its rune count plus the word's rune count exceeds
charsPerLine, the buffer is flushed first (emitted intact as the next
output line); and for FENCE-FREE input without leading quote or list
markers, every output line is within the width or is a lone over-long word
containing no whitespace (such a word is never split).  The original
claim's width bound fails for inputs containing code fences — see the
counterexample. -/
theorem claim_C2_thm :
    (∀ (qp : List Char) (f : fmtState) (lp : List Char) (out : List (List Char))
        (w : List Char),
      f.newLineRunes ≠ 0 → f.newLineRunes + w.length > f.charsPerLine →
      ∃ rest, (processWord qp (f, lp, out) w).2.2 =
        out ++ trimRight f.newLine :: rest) ∧
    (∀ (cpl : Nat) (lines : List (List Char)),
      (∀ l ∈ lines, fenceMarker.isPrefixOf (trimSpace l) = false ∧
        (countQuoteDepth l).1 = 0 ∧ (countListIndent l).typ = listType.noList) →
      ∀ o ∈ process cpl lines, widthOk cpl o) := by
  constructor
  · intro qp f lp out w hnz hov
    simp only [processWord, flushLine, writeToLine, if_pos (And.intro hnz hov)]
    split_ifs <;>
      first
      | exact ⟨[], rfl⟩
      | exact ⟨_, List.append_assoc _ _ _⟩
  · exact process_widthOk

/-- Claim C2 witness: the width-flush rule applied at a pending state with
an 80-rune word, and the width bound applied to the line "hello world" at
width 80. -/
theorem claim_C2_witness :
    (∃ rest, (processWord [] (pendingState, [], []) (List.replicate 80 'a')).2.2 =
      [] ++ trimRight pendingState.newLine :: rest) ∧
    (∀ o ∈ process 80 ["hello world".toList], widthOk 80 o) :=
  ⟨claim_C2_thm.1 [] pendingState [] [] (List.replicate 80 'a')
      (by decide) (by decide),
   claim_C2_thm.2 80 ["hello world".toList] (by decide)⟩

/-- Claim C8 counterexample: with an output stream on which every write
fails and a read failure ending the input, the engine still attempts both
writes — the first write's failure does not terminate processing — and no
error is surfaced (the run's only product is the write log). -/
theorem claim_C8_counterexample :
    (processFl 80 ["a.".toList, "b.".toList] (some ()) (fun _ => true)).attempted =
      ["a.".toList, "b.".toList] ∧
    (processFl 80 ["a.".toList, "b.".toList] (some ()) (fun _ => true)).results =
      [true, true] := by
  decide

/-- Claim C8, amended: stream errors are neither fatal nor surfaced.  The
engine discards every write error and never consults the scanner's error:
the sequence of lines handed to the writer is independent of the read
error and of which writes fail, and equals the pure model's output — a
write failure does not abort the run, a read failure merely ends the input
(the final flush still runs), and there are no retries. -/
theorem claim_C8_thm :
    (∀ (cpl : Nat) (delivered : List (List Char)) (readErr : Option Unit)
        (fail : Nat → Bool),
      (processFl cpl delivered readErr fail).attempted = process cpl delivered) ∧
    (∀ (cpl : Nat) (delivered : List (List Char)) (e1 e2 : Option Unit)
        (fail1 fail2 : Nat → Bool),
      (processFl cpl delivered e1 fail1).attempted =
        (processFl cpl delivered e2 fail2).attempted) :=
  ⟨processFl_attempted,
   fun cpl delivered e1 e2 fail1 fail2 =>
     (processFl_attempted cpl delivered e1 fail1).trans
       (processFl_attempted cpl delivered e2 fail2).symm⟩

end MdWrap
